import Mathlib

/-!
Verification development for the batch subtitle-translation pipeline of
`api/web_translate_srt.py` (class `DeepLWebTranslator`) and the reassembly
loop shared with `api/translate_srt.py` (class `DeepLTranslator`).

Python strings are modelled as `List Char`.  Python's `str.strip()`,
`str.replace(old, new)` and `str.endswith(tuple)` are modelled by
`pyStrip`, `pyReplace` and a last-character test; the regular expression
`<(\d+)>(.*?)(?=\n<|\Z)` used with `re.DOTALL` by `process_buffer` is
modelled by the scanner `scanMatches` (ASCII decimal digits; the channel
interaction of `translate_text` is modelled by `Channel`, with `fail`
standing for the `except` path and `resp` for a stream of sampled
outputs of the target box polled by the stability loop).
-/

namespace VC

abbrev PyStr := List Char

/-- Whitespace recognised by Python's `str.strip()` (ASCII part). -/
def isPySpace (c : Char) : Bool :=
  c = ' ' || c = '\t' || c = '\n' || c = '\r' || c = '\x0b' || c = '\x0c'

/-- Model of Python `str.strip()`: drop whitespace from both ends. -/
def pyStrip (s : PyStr) : PyStr :=
  ((s.dropWhile isPySpace).reverse.dropWhile isPySpace).reverse

/-- Model of Python `str.replace(pat, rep)` where `pat = p :: ps` is
non-empty: left-to-right, non-overlapping replacement.  The first argument
counts characters of an already-matched pattern still to be skipped, which
keeps the recursion structural in the string. -/
def replAux (p : Char) (ps rep : PyStr) : Nat → PyStr → PyStr
  | _, [] => []
  | k + 1, _ :: cs => replAux p ps rep k cs
  | 0, c :: cs =>
    if c = p ∧ ps.isPrefixOf cs then rep ++ replAux p ps rep ps.length cs
    else c :: replAux p ps rep 0 cs

def pyReplace (p : Char) (ps rep : PyStr) (s : PyStr) : PyStr :=
  replAux p ps rep 0 s

/-- `content.replace(chr(10), ' ')` of the source. -/
def collapseNL (s : PyStr) : PyStr := pyReplace '\n' [] [' '] s

/-- `'.replace('<', '&lt;')` of the source. -/
def escLt (s : PyStr) : PyStr := pyReplace '<' [] "&lt;".toList s

/-- `'.replace('>', '&gt;')` of the source. -/
def escGt (s : PyStr) : PyStr := pyReplace '>' [] "&gt;".toList s

/-- The per-segment preprocessing of `process_buffer`, line 224:
`s.content.strip().replace(chr(10),' ').replace('<','&lt;').replace('>','&gt;')`. -/
def sanitize (s : PyStr) : PyStr := escGt (escLt (collapseNL (pyStrip s)))

/-- `'.replace('&lt;', '<')` of the decode path. -/
def unescLt (s : PyStr) : PyStr := pyReplace '&' "lt;".toList ['<'] s

/-- `'.replace('&gt;', '>')` of the decode path. -/
def unescGt (s : PyStr) : PyStr := pyReplace '&' "gt;".toList ['>'] s

/-- Decode-side cleaning of a matched fragment, line 247:
`content.strip().replace('&lt;', '<').replace('&gt;', '>')`. -/
def cleanFrag (s : PyStr) : PyStr := unescGt (unescLt (pyStrip s))

/-- Model of Python's `pat in s` substring test. -/
def containsSub (pat : PyStr) : PyStr → Bool
  | [] => pat.isEmpty
  | c :: cs => pat.isPrefixOf (c :: cs) || containsSub pat cs

/-- ASCII decimal digit (model of the regex class `\d`). -/
def isDigitCh (c : Char) : Bool := 48 ≤ c.toNat && c.toNat ≤ 57

/-- Model of Python `int(seq_str)` on a string of decimal digits. -/
def parseDec (ds : PyStr) : Nat := ds.foldl (fun a c => a * 10 + (c.toNat - 48)) 0

/-- Decimal rendering of a natural number (model of `f"{seq_num}"`); the
fuel `n + 1` always suffices since the value shrinks by a factor 10. -/
def toDecCore : Nat → Nat → PyStr → PyStr
  | 0, _, acc => acc
  | fuel + 1, n, acc =>
    if n < 10 then Char.ofNat (48 + n % 10) :: acc
    else toDecCore fuel (n / 10) (Char.ofNat (48 + n % 10) :: acc)

def toDec (n : Nat) : PyStr := toDecCore (n + 1) n []

/-- A parsed SRT block: `srt.Subtitle(index=…, start=…, end=…, content=…)`.
Timing values are opaque to the pipeline and modelled as integers
(`stop` stands for the source's `end` field). -/
structure Subtitle where
  index : Int
  start : Int
  stop : Int
  content : PyStr
deriving DecidableEq

/-- The sentence-final punctuation tuple of `is_sentence_end`, line 178
(all members are single characters, `'…'` appears twice as in the source). -/
def endings : List Char := ['.', '?', '!', ';', '。', '？', '！', '；', '…', '"', '”', '…']

/-- `DeepLWebTranslator.is_sentence_end`: `text.strip().endswith(endings)`. -/
def is_sentence_end (text : PyStr) : Bool :=
  match (pyStrip text).getLast? with
  | some c => endings.contains c
  | none => false

/-- The per-segment accumulated length of the batching loop, lines 290-292:
`len(sub.content.strip().replace('\n', ' ')) + 3`. -/
def weight (s : Subtitle) : Nat := (collapseNL (pyStrip s.content)).length + 3

def sumWeights (b : List (Nat × Subtitle)) : Nat := (b.map fun gs => weight gs.2).sum

/-- Outcome of one interaction with the DeepL page for one submitted text:
either the `except` path of `translate_text` (`fail`), or a stream of
texts read from the output box, one per polling iteration (`resp`);
an iteration whose `inner_text` raises is a `[]` sample. -/
inductive ChannelResult where
  | fail : ChannelResult
  | resp : (Nat → PyStr) → ChannelResult

abbrev Channel := PyStr → ChannelResult

/-- The poll-for-stability loop of `translate_text`, lines 124-157.
State: remaining iterations (initially 60), next sample index, `prev_text`,
`stable_count`.  Returns the final text, whether the loop returned early on
stability, and the number of samples consumed. -/
def pollAux (samples : Nat → PyStr) : Nat → Nat → PyStr → Nat → PyStr × Bool × Nat
  | 0, i, prev, _ => (prev, false, i)
  | fuel + 1, i, prev, stable =>
    let cur := samples i
    if cur = [] ∨ containsSub "[...]".toList cur then
      pollAux samples fuel (i + 1) prev stable
    else if cur ≠ prev then
      pollAux samples fuel (i + 1) cur 0
    else if 3 ≤ stable + 1 ∧ pyStrip cur ≠ [] then
      (cur, true, i + 1)
    else
      pollAux samples fuel (i + 1) cur (stable + 1)

def poll_loop (samples : Nat → PyStr) : PyStr × Bool × Nat := pollAux samples 60 0 [] 0

/-- `DeepLWebTranslator.translate_text`: empty-after-strip input returns `""`;
a hard failure of the page interaction returns the input text unchanged
(line 167 `return text`); otherwise the polled result. -/
def translate_text (ch : Channel) (text : PyStr) : PyStr :=
  if pyStrip text = [] then []
  else
    match ch text with
    | ChannelResult.fail => text
    | ChannelResult.resp samples => (poll_loop samples).1

def failChannel : Channel := fun _ => ChannelResult.fail

def constChannel (r : PyStr) : Channel := fun _ => ChannelResult.resp fun _ => r

def emptyChannel : Channel := constChannel []

/-- Length matched by the lazy group `(.*?)(?=\n<|\Z)` under `re.DOTALL`:
the shortest prefix after which the rest is empty or starts with `"\n<"`. -/
def lazyLen : PyStr → Nat
  | [] => 0
  | c :: cs => if c = '\n' ∧ cs.head? = some '<' then 0 else lazyLen cs + 1

/-- Model of `re.findall(r'<(\d+)>(.*?)(?=\n<|\Z)', trans_text, re.DOTALL)`:
scan left to right; at `'<'` take a maximal non-empty digit run followed by
`'>'`, then the lazily matched content; resume after the match.  The scanned
string strictly shrinks at every step, so fuel equal to its length always
suffices. -/
def scanAux : Nat → PyStr → List (PyStr × PyStr)
  | 0, _ => []
  | _ + 1, [] => []
  | fuel + 1, c :: cs =>
    let ds := cs.takeWhile isDigitCh
    let rest := cs.dropWhile isDigitCh
    if c = '<' ∧ ds ≠ [] ∧ rest.head? = some '>' then
      (ds, rest.tail.take (lazyLen rest.tail)) :: scanAux fuel (rest.tail.drop (lazyLen rest.tail))
    else scanAux fuel cs

def scanMatches (s : PyStr) : List (PyStr × PyStr) := scanAux s.length s

/-- Python-dict semantics of incremental `map[k] = v` updates followed by
`map.get(k)`: the last write wins. -/
def applyUpdates (ups : List (Nat × PyStr)) : Nat → Option PyStr :=
  ups.foldl (fun m kv => fun n => if n = kv.1 then some kv.2 else m n) fun _ => none

/-- `batch_trans_map` of `process_buffer`, lines 242-250: for each regex
match, `int` the position and clean the fragment. -/
def buildTransMap (trans : PyStr) : Nat → Option PyStr :=
  applyUpdates ((scanMatches trans).map fun m => (parseDec m.1, cleanFrag m.2))

/-- The anchored lines of `process_buffer`, lines 219-225:
`f"<{i+1}>{sanitized}"` for each batch member. -/
def formattedLines (items : List (Nat × Subtitle)) : List PyStr :=
  items.enum.map fun p => '<' :: (toDec (p.1 + 1) ++ '>' :: sanitize p.2.2.content)

/-- `"\n".join(lines)` of line 228. -/
def joinNL : List PyStr → PyStr
  | [] => []
  | [l] => l
  | l :: ls => l ++ '\n' :: joinNL ls

/-- `merged_text` of `process_buffer`. -/
def batchPayload (items : List (Nat × Subtitle)) : PyStr :=
  joinNL (formattedLines items)

/-- The `missing_indices` of lines 254-263, paired with their batch members:
relative positions whose anchor was not recovered from `trans`. -/
def missingAfter (trans : PyStr) (items : List (Nat × Subtitle)) :
    List (Nat × (Nat × Subtitle)) :=
  items.enum.filter fun p => (buildTransMap trans (p.1 + 1)).isNone

/-- `process_buffer` (lines 202-286), parameterised by the channel.  Returns
the `translated_map` assignments it performs (in program order) and the list
of texts it hands to `translate_text` (the submission log).  The random
inter-request sleeps are irrelevant to the data flow and not modelled. -/
def processBuffer (ch : Channel) (singleMode : Bool) (items : List (Nat × Subtitle)) :
    List (Nat × PyStr) × List PyStr :=
  if items = [] then ([], [])
  else if singleMode then
    (items.map fun gs => (gs.1, translate_text ch gs.2.content),
     items.map fun gs => gs.2.content)
  else
    let merged := batchPayload items
    let trans := translate_text ch merged
    let found := items.enum.filterMap fun p =>
      (buildTransMap trans (p.1 + 1)).map fun t => (p.2.1, t)
    let miss := missingAfter trans items
    (found ++ miss.map fun p => (p.2.1, translate_text ch p.2.2.content),
     merged :: miss.map fun p => p.2.2.content)

/-- The relative positions a run of `process_buffer` finds missing. -/
def missingRel (ch : Channel) (items : List (Nat × Subtitle)) :
    List (Nat × (Nat × Subtitle)) :=
  missingAfter (translate_text ch (batchPayload items)) items

/-- State of the smart-batching main loop, lines 289-330:
`buffer_subs`, `buffer_len`, and the sequence of `process_buffer` calls
already issued (each with its argument list). -/
structure PlanState where
  buffer : List (Nat × Subtitle)
  bufLen : Nat
  sent : List (List (Nat × Subtitle))

/-- The backward scan of lines 302-306: index of the most recent buffer
member whose content ends a sentence (`some` of the greatest such index,
mirroring `for j in range(len(buffer_subs)-1, -1, -1): … break`). -/
def findLastEnder : List (Nat × Subtitle) → Option Nat
  | [] => none
  | x :: xs =>
    match findLastEnder xs with
    | some j => some (j + 1)
    | none => if is_sentence_end x.2.content then some 0 else none

/-- One iteration of the batching loop, lines 289-330: on overflow, split at
the last sentence end when it is not the final member, else flush the whole
buffer; then append the current segment. -/
def stepPlan (B : Nat) (st : PlanState) (item : Nat × Subtitle) : PlanState :=
  let c := weight item.2
  let st' :=
    if B < st.bufLen + c then
      match findLastEnder st.buffer with
      | some j =>
        if j < st.buffer.length - 1 then
          { buffer := st.buffer.drop (j + 1),
            bufLen := sumWeights (st.buffer.drop (j + 1)),
            sent := st.sent ++ [st.buffer.take (j + 1)] }
        else
          { buffer := [], bufLen := 0, sent := st.sent ++ [st.buffer] }
      | none => { buffer := [], bufLen := 0, sent := st.sent ++ [st.buffer] }
    else st
  { buffer := st'.buffer ++ [item], bufLen := st'.bufLen + c, sent := st'.sent }

/-- The argument lists of all `process_buffer` calls made by `process` for
a given subtitle list and character budget (`self.max_chars`), including the
final flush of line 333.  `process_buffer` returns immediately on an empty
argument, so empty entries submit nothing to the channel. -/
def planBatches (B : Nat) (subs : List Subtitle) : List (List (Nat × Subtitle)) :=
  let fin := subs.enum.foldl (stepPlan B) ⟨[], 0, []⟩
  fin.sent ++ [fin.buffer]

/-- All `translated_map` assignments of a run, in program order. -/
def runUpdates (ch : Channel) (singleMode : Bool) (B : Nat) (subs : List Subtitle) :
    List (Nat × PyStr) :=
  (planBatches B subs).flatMap fun b => (processBuffer ch singleMode b).1

/-- The final `translated_map`, as a lookup with Python `dict.get` semantics. -/
def translatedMap (ch : Channel) (singleMode : Bool) (B : Nat) (subs : List Subtitle) :
    Nat → Option PyStr :=
  applyUpdates (runUpdates ch singleMode B subs)

/-- The reassembly loop shared by `web_translate_srt.py` (lines 337-354) and
`translate_srt.py` (lines 148-166): look the global index up in the map,
fall back to the original content when absent or empty, optionally join
translation and original with a newline, and copy index/start/end. -/
def reassemble (bilingual : Bool) (tmap : Nat → Option PyStr) (subs : List Subtitle) :
    List Subtitle :=
  subs.enum.map fun p =>
    let trans0 := (tmap p.1).getD []
    let trans := if trans0 = [] then p.2.content else trans0
    { index := p.2.index, start := p.2.start, stop := p.2.stop,
      content := if bilingual then trans ++ '\n' :: p.2.content else trans }

/-- End-to-end data flow of `DeepLWebTranslator.process`: plan batches,
run `process_buffer` on each, reassemble. -/
def process_run (ch : Channel) (singleMode bilingual : Bool) (B : Nat)
    (subs : List Subtitle) : List Subtitle :=
  reassemble bilingual (translatedMap ch singleMode B subs) subs

/-- The tail of `process`, lines 356-367: the integrity comparison only
feeds `logger.error` (first component: whether the mismatch message fires),
and the file write of line 367 is unconditional (second component: the data
written, always `some`). -/
def saveStep (subs newSubs : List Subtitle) : Bool × Option (List Subtitle) :=
  (newSubs.length != subs.length, some newSubs)

/-- Concrete subtitles and channels used by counterexamples and witnesses. -/
def mkSub (ix : Int) (s : String) : Subtitle :=
  { index := ix, start := 0, stop := 1, content := s.toList }

def cexSubs : List Subtitle :=
  [mkSub 1 "ab.", mkSub 2 "bbbbbb", mkSub 3 "cccc", mkSub 4 "d"]

def c5_items : List (Nat × Subtitle) :=
  [(0, mkSub 1 "ab"), (1, mkSub 2 "cd"), (2, mkSub 3 "ef")]

def c5_chan : Channel := constChannel "<2>X".toList

def c7_sub : Subtitle := mkSub 1 "ab\ncd"

def c8_items : List (Nat × Subtitle) := [(0, mkSub 1 "ab"), (1, mkSub 2 "cd.")]

def c6_state : PlanState :=
  { buffer := [(0, mkSub 1 "ab."), (1, mkSub 2 "xy")], bufLen := 11, sent := [] }

def c6_item : Nat × Subtitle := (2, mkSub 3 "zz")

def c1_sub : Subtitle := mkSub 7 "hello"

def c4_subs : List Subtitle := [mkSub 9 "line"]

def c10_items : List (Nat × Subtitle) := [(0, mkSub 1 "ab"), (1, mkSub 2 "c<d")]

/-- Character-level view of the escaping `'<' ↦ "&lt;"`, `'>' ↦ "&gt;"`
performed by `sanitize` (verification-level). -/
def escChar (c : Char) : PyStr :=
  if c = '<' then "&lt;".toList else if c = '>' then "&gt;".toList else [c]

/-- Character-level view of the intermediate string after undoing the
`'<'` escape only (verification-level). -/
def escChar2 (c : Char) : PyStr :=
  if c = '>' then "&gt;".toList else [c]

/-- Anchored lines for abstract (position, body) pairs (verification-level
generalisation of `formattedLines`). -/
def anchorLines (ps : List (Nat × PyStr)) : List PyStr :=
  ps.map fun q => '<' :: (toDec q.1 ++ '>' :: q.2)

def anchorPayload (ps : List (Nat × PyStr)) : PyStr := joinNL (anchorLines ps)

/-- The (position, sanitized text) pairs a batch is encoded from. -/
def sanitizedPairs (items : List (Nat × Subtitle)) : List (Nat × PyStr) :=
  items.enum.map fun p => (p.1 + 1, sanitize p.2.2.content)

/-- Loop invariant of the batching loop (verification-level): the tracked
length agrees with the member weights; the buffer minus its last member is
within budget; an over-budget buffer has no sentence end before its last
member; and every batch already sent is within budget once its last member
is removed. -/
def PlanInv (B : Nat) (st : PlanState) : Prop :=
  st.bufLen = sumWeights st.buffer ∧
  sumWeights st.buffer.dropLast ≤ B ∧
  (B < sumWeights st.buffer →
    ∀ x ∈ st.buffer.dropLast, is_sentence_end x.2.content = false) ∧
  (∀ b ∈ st.sent, sumWeights b.dropLast ≤ B)

/-! ## Theorems -/

/-- Claim C1: for every input subtitle list (and any translation map, hence
for both `DeepLWebTranslator.process` and `DeepLTranslator.process`), the
reassembled output has exactly the input's length, and position `i` keeps
the input segment's `index`, `start` and `end` unchanged — only the text
content is replaced. -/
theorem c1_reassemble_preserves_structure (b : Bool) (tmap : Nat → Option PyStr)
    (subs : List Subtitle) :
    (reassemble b tmap subs).length = subs.length ∧
    ∀ (i : Nat) (h1 : i < (reassemble b tmap subs).length) (h2 : i < subs.length),
      ((reassemble b tmap subs).get ⟨i, h1⟩).index = (subs.get ⟨i, h2⟩).index ∧
      ((reassemble b tmap subs).get ⟨i, h1⟩).start = (subs.get ⟨i, h2⟩).start ∧
      ((reassemble b tmap subs).get ⟨i, h1⟩).stop = (subs.get ⟨i, h2⟩).stop := by
  refine ⟨by simp [reassemble], ?_⟩
  intro i h1 h2
  simp [reassemble, List.get_eq_getElem, List.getElem_map, List.getElem_enum]

/-- Witness for C1 at a concrete input. -/
theorem c1_witness :
    (reassemble false (fun _ => none) [c1_sub]).length = 1 ∧
    ((reassemble false (fun _ => none) [c1_sub]).get ⟨0, by decide⟩).index = c1_sub.index := by
  have h := c1_reassemble_preserves_structure false (fun _ => none) [c1_sub]
  exact ⟨h.1.trans rfl, (h.2 0 (by decide) (by decide)).1⟩

/-- Claim C4 (code bug): `process` lines 356-358 only log the count
mismatch (`logger.error`) and line 367 writes the output file
unconditionally.  At a mismatched pair the check fires (`true`) yet the
data is still written (`some`), contradicting "raises a fatal integrity
error and nothing is written". -/
theorem c4_integrity_check_eval : saveStep c4_subs [] = (true, some []) := by decide

/-- Claim C3 counterexample: with budget 15 and the four segments of
`cexSubs` the planner emits the two-member batch `[(1,…),(2,…)]` of
accumulated length 16 > 15 (a sentence-boundary carry-forward), so the
claimed "within budget unless an oversized singleton" invariant is false. -/
theorem c3_counterexample :
    ¬ ∀ b ∈ planBatches 15 cexSubs,
        sumWeights b ≤ 15 ∨ (b.length = 1 ∧ 15 < sumWeights b) := by decide

/-- Claim C5 counterexample: the channel answer `<2>X` to the three-member
batch leaves the two relative positions 1 and 3 missing, yet the follow-up
submissions are the two raw texts `ab` and `ef` one by one; the
re-encoded two-member payload `<1>ab\n<2>ef` is never submitted, so
missing sets with more than one member are not pushed back as a batch. -/
theorem c5_counterexample :
    1 < (missingRel c5_chan c5_items).length ∧
    (processBuffer c5_chan false c5_items).2
      = [batchPayload c5_items, "ab".toList, "ef".toList] ∧
    batchPayload ((missingRel c5_chan c5_items).map fun p => p.2)
      ∉ (processBuffer c5_chan false c5_items).2 := by decide

/-- Claim C7 counterexample: in single-line mode the text handed to the
channel for a segment containing a line break is the raw content
`"ab\ncd"` — it still contains `'\n'` and differs from its collapsed
form, so line breaks are not collapsed in every submission path. -/
theorem c7_counterexample :
    (processBuffer emptyChannel true [(0, c7_sub)]).2 = ["ab\ncd".toList] ∧
    '\n' ∈ "ab\ncd".toList ∧
    "ab\ncd".toList ≠ collapseNL (pyStrip "ab\ncd".toList) := by decide

/-- With an always-empty output box the stability loop never updates
`prev_text` and finally returns it unchanged. -/
theorem pollAux_const_empty (fuel : Nat) :
    ∀ (i : Nat) (prev : PyStr) (stable : Nat),
      (pollAux (fun _ => []) fuel i prev stable).1 = prev := by
  induction fuel with
  | zero => intro i prev stable; rfl
  | succ f ih =>
    intro i prev stable
    simp [pollAux, ih]

/-- `translate_text` over the always-empty channel yields the empty string
for every input. -/
theorem translate_text_empty (t : PyStr) : translate_text emptyChannel t = [] := by
  by_cases h : pyStrip t = []
  · simp [translate_text, h]
  · simp [translate_text, h, emptyChannel, constChannel, poll_loop, pollAux_const_empty]

/-- Every `translated_map` assignment produced by `process_buffer` over the
always-empty channel carries the empty string. -/
theorem processBuffer_empty_updates (m : Bool) (items : List (Nat × Subtitle)) :
    ∀ kv ∈ (processBuffer emptyChannel m items).1, kv.2 = ([] : PyStr) := by
  intro kv hkv
  unfold processBuffer at hkv
  by_cases hi : items = []
  · simp [hi] at hkv
  · rw [if_neg hi] at hkv
    by_cases hm : m = true
    · rw [if_pos hm] at hkv
      simp only [List.mem_map] at hkv
      obtain ⟨gs, _, rfl⟩ := hkv
      exact translate_text_empty _
    · rw [if_neg hm] at hkv
      simp only [translate_text_empty, List.mem_append, List.mem_filterMap,
        List.mem_map] at hkv
      rcases hkv with ⟨p, _, hp⟩ | ⟨p, _, rfl⟩
      · have : buildTransMap [] (p.1 + 1) = none := rfl
        rw [this] at hp
        simp at hp
      · rfl

/-- Folding empty-valued assignments into the dictionary leaves every key
either unset or set to the empty string. -/
theorem applyUpdates_all_nil (ups : List (Nat × PyStr))
    (h : ∀ kv ∈ ups, kv.2 = ([] : PyStr)) (n : Nat) :
    applyUpdates ups n = none ∨ applyUpdates ups n = some [] := by
  suffices key : ∀ (m0 : Nat → Option PyStr),
      (∀ k, m0 k = none ∨ m0 k = some []) →
      (ups.foldl (fun m kv => fun k => if k = kv.1 then some kv.2 else m k) m0) n = none ∨
      (ups.foldl (fun m kv => fun k => if k = kv.1 then some kv.2 else m k) m0) n = some [] by
    exact key _ fun k => Or.inl rfl
  induction ups with
  | nil => intro m0 hm0; exact hm0 n
  | cons kv ups ih =>
    intro m0 hm0
    have hkv : kv.2 = ([] : PyStr) := h kv (List.mem_cons_self _ _)
    refine ih (fun a ha => h a (List.mem_cons_of_mem _ ha)) _ ?_
    intro k
    by_cases hk : k = kv.1
    · simp [hk, hkv]
    · simp only [if_neg hk]
      exact hm0 k

/-- Claim C2: over a channel that always times out with empty observed
text, the run completes (the model is a total function: no exception
escapes the reconciliation logic), every recorded `translated_map` value is
empty — so reassembly falls back to the source text — and the non-bilingual
output carries exactly the original contents. -/
theorem c2_total_channel_failure (singleMode : Bool) (B : Nat) (subs : List Subtitle) :
    (∀ n : Nat, translatedMap emptyChannel singleMode B subs n = none ∨
      translatedMap emptyChannel singleMode B subs n = some []) ∧
    (process_run emptyChannel singleMode false B subs).map (fun s => s.content)
      = subs.map fun s => s.content := by
  have hup : ∀ kv ∈ runUpdates emptyChannel singleMode B subs, kv.2 = ([] : PyStr) := by
    intro kv hkv
    rw [runUpdates, List.mem_flatMap] at hkv
    obtain ⟨b, _, hb⟩ := hkv
    exact processBuffer_empty_updates _ _ kv hb
  have hmap := applyUpdates_all_nil _ hup
  refine ⟨hmap, ?_⟩
  unfold process_run reassemble
  refine congrArg (List.map _) ?_
  conv_rhs => rw [← List.enum_map_snd subs]
  refine List.map_congr_left ?_
  intro p _
  rcases hmap p.1 with h | h <;> simp [translatedMap, h]

/-- Claim C8 counterexample: on a hard channel failure the batch payload is
submitted exactly once (no whole-batch retry), and because `translate_text`
returns its input unchanged, decoding recovers every anchor: no segment is
treated as missing — instead each is filled with its own untranslated text
at decode time. -/
theorem c8_counterexample :
    (processBuffer failChannel false c8_items).2 = [batchPayload c8_items] ∧
    (processBuffer failChannel false c8_items).1
      = [(0, "ab".toList), (1, "cd.".toList)] ∧
    missingRel failChannel c8_items = [] := by decide

/-- If the backward scan finds nothing, no member ends a sentence. -/
theorem findLastEnder_eq_none (l : List (Nat × Subtitle)) (h : findLastEnder l = none) :
    ∀ x ∈ l, is_sentence_end x.2.content = false := by
  induction l with
  | nil => intro x hx; cases hx
  | cons a l ih =>
    intro x hx
    unfold findLastEnder at h
    cases hfl : findLastEnder l with
    | some j => rw [hfl] at h; cases h
    | none =>
      rw [hfl] at h
      by_cases ha : is_sentence_end a.2.content = true
      · rw [if_pos ha] at h; cases h
      · rcases List.mem_cons.mp hx with rfl | hx'
        · exact Bool.not_eq_true _ |>.mp ha
        · exact ih hfl x hx'

/-- The index returned by the backward scan is in range and points at a
sentence-ending member. -/
theorem findLastEnder_eq_some (l : List (Nat × Subtitle)) (j : Nat)
    (h : findLastEnder l = some j) :
    ∃ hj : j < l.length, is_sentence_end ((l.get ⟨j, hj⟩).2.content) = true := by
  induction l generalizing j with
  | nil => cases h
  | cons a l ih =>
    unfold findLastEnder at h
    cases hfl : findLastEnder l with
    | some j' =>
      rw [hfl] at h
      cases h
      obtain ⟨hj', he⟩ := ih j' hfl
      exact ⟨Nat.succ_lt_succ hj', he⟩
    | none =>
      rw [hfl] at h
      by_cases ha : is_sentence_end a.2.content = true
      · rw [if_pos ha] at h
        cases h
        exact ⟨Nat.succ_pos _, ha⟩
      · rw [if_neg ha] at h; cases h

/-- The backward scan stops at the most recent sentence end: every member
after the returned index is not a sentence end. -/
theorem findLastEnder_greatest (l : List (Nat × Subtitle)) (j : Nat)
    (h : findLastEnder l = some j) :
    ∀ (k : Nat) (hk : k < l.length), j < k →
      is_sentence_end ((l.get ⟨k, hk⟩).2.content) = false := by
  induction l generalizing j with
  | nil => cases h
  | cons a l ih =>
    intro k hk hjk
    unfold findLastEnder at h
    cases hfl : findLastEnder l with
    | some j' =>
      rw [hfl] at h
      cases h
      rcases Nat.exists_eq_succ_of_ne_zero (n := k) (by omega) with ⟨m, rfl⟩
      have hm : m < l.length := Nat.lt_of_succ_lt_succ hk
      exact ih j' hfl m hm (by omega)
    | none =>
      rw [hfl] at h
      by_cases ha : is_sentence_end a.2.content = true
      · rw [if_pos ha] at h
        cases h
        rcases Nat.exists_eq_succ_of_ne_zero (n := k) (by omega) with ⟨m, rfl⟩
        have hm : m < l.length := Nat.lt_of_succ_lt_succ hk
        exact findLastEnder_eq_none l hfl (l.get ⟨m, hm⟩) (List.get_mem _ _ _)
      · rw [if_neg ha] at h; cases h

/-- The most recent sentence end determines the scan's answer. -/
theorem findLastEnder_of_greatest (l : List (Nat × Subtitle)) (j : Nat)
    (hj : j < l.length) (hend : is_sentence_end ((l.get ⟨j, hj⟩).2.content) = true)
    (hmax : ∀ (k : Nat) (hk : k < l.length), j < k →
      is_sentence_end ((l.get ⟨k, hk⟩).2.content) = false) :
    findLastEnder l = some j := by
  cases hfl : findLastEnder l with
  | none =>
    have := findLastEnder_eq_none l hfl (l.get ⟨j, hj⟩) (List.get_mem _ _ _)
    rw [hend] at this
    cases this
  | some j' =>
    obtain ⟨hj', he'⟩ := findLastEnder_eq_some l j' hfl
    have h1 : ¬ j < j' := by
      intro hlt
      have := hmax j' hj' hlt
      rw [he'] at this
      cases this
    have h2 : ¬ j' < j := by
      intro hlt
      have := findLastEnder_greatest l j' hfl j hj hlt
      rw [hend] at this
      cases this
    have heq : j' = j := by omega
    rw [heq]

/-- Claim C6: when adding a segment would overflow the budget, the planner
closes the batch exactly after the most recent sentence-ending member and
carries the remaining members plus the current segment forward (when that
member is the last one this coincides with cutting at the overflow point);
and when no member ends a sentence it cuts at the overflow point, the
current segment starting the next buffer. -/
theorem c6_sentence_boundary_split (B : Nat) (st : PlanState) (item : Nat × Subtitle)
    (hov : B < st.bufLen + weight item.2) :
    (∀ (j : Nat) (hj : j < st.buffer.length),
      is_sentence_end ((st.buffer.get ⟨j, hj⟩).2.content) = true →
      (∀ (k : Nat) (hk : k < st.buffer.length), j < k →
        is_sentence_end ((st.buffer.get ⟨k, hk⟩).2.content) = false) →
      (stepPlan B st item).sent = st.sent ++ [st.buffer.take (j + 1)] ∧
      (stepPlan B st item).buffer = st.buffer.drop (j + 1) ++ [item]) ∧
    ((∀ (j : Nat) (hj : j < st.buffer.length),
        is_sentence_end ((st.buffer.get ⟨j, hj⟩).2.content) = false) →
      (stepPlan B st item).sent = st.sent ++ [st.buffer] ∧
      (stepPlan B st item).buffer = [item]) := by
  constructor
  · intro j hj hend hmax
    have hfl : findLastEnder st.buffer = some j :=
      findLastEnder_of_greatest _ j hj hend hmax
    by_cases hlt : j < st.buffer.length - 1
    · constructor <;> simp [stepPlan, if_pos hov, hfl, if_pos hlt]
    · have hj1 : j + 1 = st.buffer.length := by omega
      constructor <;>
        simp [stepPlan, if_pos hov, hfl, if_neg hlt, hj1, List.take_length, List.drop_length]
  · intro hall
    have hfl : findLastEnder st.buffer = none := by
      cases hfl : findLastEnder st.buffer with
      | none => rfl
      | some j =>
        obtain ⟨hj, he⟩ := findLastEnder_eq_some _ _ hfl
        rw [hall j hj] at he
        cases he
    constructor <;> simp [stepPlan, if_pos hov, hfl]

/-- Witness for C6: at budget 10 with a pending buffer whose first member
ends in `'.'`, the overflow caused by a new segment closes the batch after
that member and carries the second member plus the new segment forward. -/
theorem c6_witness :
    (stepPlan 10 c6_state c6_item).sent = [[(0, mkSub 1 "ab.")]] ∧
    (stepPlan 10 c6_state c6_item).buffer = [(1, mkSub 2 "xy"), c6_item] := by
  have h := (c6_sentence_boundary_split 10 c6_state c6_item (by decide)).1
    0 (by decide) (by decide) (by decide)
  obtain ⟨hs, hb⟩ := h
  constructor
  · rw [hs]; decide
  · rw [hb]; decide

/-- Weights add over concatenation of batches. -/
theorem sumWeights_append (a b : List (Nat × Subtitle)) :
    sumWeights (a ++ b) = sumWeights a + sumWeights b := by
  simp [sumWeights]

/-- Dropping the last member can only decrease the accumulated length. -/
theorem sumWeights_dropLast_le (l : List (Nat × Subtitle)) :
    sumWeights l.dropLast ≤ sumWeights l := by
  induction l with
  | nil => exact Nat.le_refl _
  | cons a l ih =>
    cases l with
    | nil => simp [sumWeights]
    | cons b l' =>
      rw [List.dropLast_cons_of_ne_nil (by simp)]
      simp only [sumWeights, List.map_cons, List.sum_cons] at ih ⊢
      omega

/-- A prefix of the buffer weighs no more than the buffer. -/
theorem sumWeights_take_le (l : List (Nat × Subtitle)) (n : Nat) :
    sumWeights (l.take n) ≤ sumWeights l := by
  conv_rhs => rw [← List.take_append_drop n l]
  rw [sumWeights_append]
  omega

/-- A suffix of the buffer weighs no more than the buffer. -/
theorem sumWeights_drop_le (l : List (Nat × Subtitle)) (n : Nat) :
    sumWeights (l.drop n) ≤ sumWeights l := by
  conv_rhs => rw [← List.take_append_drop n l]
  rw [sumWeights_append]
  omega

/-- Everything after the scan's answer is not a sentence end (membership
form, over the dropped suffix). -/
theorem findLastEnder_drop (l : List (Nat × Subtitle)) (j : Nat)
    (h : findLastEnder l = some j) :
    ∀ x ∈ l.drop (j + 1), is_sentence_end x.2.content = false := by
  intro x hx
  rw [List.mem_iff_getElem] at hx
  obtain ⟨m, hm, rfl⟩ := hx
  rw [List.getElem_drop]
  have hlen : j + 1 + m < l.length := by
    rw [List.length_drop] at hm; omega
  exact findLastEnder_greatest l j h (j + 1 + m) hlen (by omega)

/-- One step of the batching loop preserves the planner invariant. -/
theorem stepPlan_preserves (B : Nat) (st : PlanState) (item : Nat × Subtitle)
    (h : PlanInv B st) : PlanInv B (stepPlan B st item) := by
  obtain ⟨h1, h2, h3, h4⟩ := h
  by_cases hov : B < st.bufLen + weight item.2
  · cases hfl : findLastEnder st.buffer with
    | none =>
      refine ⟨?_, ?_, ?_, ?_⟩ <;> simp only [stepPlan, if_pos hov, hfl]
      · simp [sumWeights]
      · simp [sumWeights]
      · intro _ x hx
        simp at hx
      · intro b hb
        simp only [List.nil_append, List.mem_append, List.mem_singleton] at hb
        rcases hb with hb | rfl
        · exact h4 b hb
        · exact h2
    | some j =>
      by_cases hlt : j < st.buffer.length - 1
      · have hsum : sumWeights st.buffer ≤ B := by
          by_contra hB
          push_neg at hB
          obtain ⟨hj, he⟩ := findLastEnder_eq_some _ _ hfl
          have hjd : j < st.buffer.dropLast.length := by
            rw [List.length_dropLast]; omega
          have hval := h3 hB (st.buffer.dropLast.get ⟨j, hjd⟩) (List.get_mem _ _ _)
          rw [List.get_eq_getElem, List.getElem_dropLast] at hval
          cases he.symm.trans hval
        refine ⟨?_, ?_, ?_, ?_⟩ <;> simp only [stepPlan, if_pos hov, hfl, if_pos hlt]
        · simp [sumWeights]
        · rw [List.dropLast_concat]
          exact le_trans (sumWeights_drop_le _ _) hsum
        · intro _ x hx
          rw [List.dropLast_concat] at hx
          exact findLastEnder_drop _ _ hfl x hx
        · intro b hb
          simp only [List.mem_append, List.mem_singleton] at hb
          rcases hb with hb | rfl
          · exact h4 b hb
          · exact le_trans (sumWeights_dropLast_le _)
              (le_trans (sumWeights_take_le _ _) hsum)
      · refine ⟨?_, ?_, ?_, ?_⟩ <;> simp only [stepPlan, if_pos hov, hfl, if_neg hlt]
        · simp [sumWeights]
        · simp [sumWeights]
        · intro _ x hx
          simp at hx
        · intro b hb
          simp only [List.nil_append, List.mem_append, List.mem_singleton] at hb
          rcases hb with hb | rfl
          · exact h4 b hb
          · exact h2
  · refine ⟨?_, ?_, ?_, ?_⟩ <;> simp only [stepPlan, if_neg hov]
    · simp [sumWeights, h1]
    · rw [List.dropLast_concat]
      rw [h1] at hov
      push_neg at hov
      have : weight item.2 ≥ 0 := Nat.zero_le _
      omega
    · intro hB x hx
      rw [sumWeights_append] at hB
      have hs : sumWeights [item] = weight item.2 := by simp [sumWeights]
      rw [hs] at hB
      rw [h1] at hov
      exact absurd hB hov
    · exact h4

/-- The invariant holds after folding any segment list. -/
theorem foldl_stepPlan_preserves (B : Nat) (l : List (Nat × Subtitle)) :
    ∀ st : PlanState, PlanInv B st → PlanInv B (l.foldl (stepPlan B) st) := by
  induction l with
  | nil => intro st h; exact h
  | cons a l ih =>
    intro st h
    exact ih _ (stepPlan_preserves B st a h)

/-- Claim C3, amended: for every input and budget, every batch handed to
`process_buffer` satisfies that the accumulated length of all its members
except the last is at most the budget.  (The original claim — within budget
unless an oversized singleton — is refuted by `c3_counterexample`: a
sentence-boundary carry-forward can produce a multi-member over-budget
batch.  The oversized singleton is the special case of this bound with an
empty `dropLast`.) -/
theorem c3_amended_batch_budget (B : Nat) (subs : List Subtitle) :
    ∀ b ∈ planBatches B subs, sumWeights b.dropLast ≤ B := by
  intro b hb
  have hinv : PlanInv B (subs.enum.foldl (stepPlan B) ⟨[], 0, []⟩) := by
    refine foldl_stepPlan_preserves B _ _ ⟨rfl, ?_, ?_, ?_⟩
    · exact Nat.zero_le _
    · intro hB
      simp [sumWeights] at hB
    · intro b hb
      cases hb
  obtain ⟨_, h2, _, h4⟩ := hinv
  unfold planBatches at hb
  simp only [List.mem_append, List.mem_singleton] at hb
  rcases hb with hb | rfl
  · exact h4 b hb
  · exact h2

/-- Witness for C3's amended bound at a batch of the counterexample run. -/
theorem c3_witness :
    sumWeights ([(0, mkSub 1 "ab.")] : List (Nat × Subtitle)).dropLast ≤ 15 :=
  c3_amended_batch_budget 15 cexSubs _ (by decide)

/-- Stability-loop invariant: the sample counter only grows and is bounded
by the fuel; an early return carries a non-blank text observed at four
increasing sample indices (three consecutive unchanged checks); fuel
exhaustion returns the tracked `prev_text`, which is blank or was
observed. -/
theorem pollAux_spec (samples : Nat → PyStr) :
    ∀ (fuel i : Nat) (prev : PyStr) (stable : Nat),
      (prev = [] ∨ ∃ j, j < i ∧ samples j = prev) →
      (prev ≠ [] → ∃ l : List Nat, l.length = stable + 1 ∧ l.Pairwise (· < ·) ∧
        ∀ j ∈ l, j < i ∧ samples j = prev) →
      i ≤ (pollAux samples fuel i prev stable).2.2 ∧
      (pollAux samples fuel i prev stable).2.2 ≤ i + fuel ∧
      ((pollAux samples fuel i prev stable).2.1 = true →
        pyStrip (pollAux samples fuel i prev stable).1 ≠ [] ∧
        ∃ l : List Nat, 4 ≤ l.length ∧ l.Pairwise (· < ·) ∧
          ∀ j ∈ l, j < (pollAux samples fuel i prev stable).2.2 ∧
            samples j = (pollAux samples fuel i prev stable).1) ∧
      ((pollAux samples fuel i prev stable).2.1 = false →
        (pollAux samples fuel i prev stable).1 = [] ∨
        ∃ j, j < (pollAux samples fuel i prev stable).2.2 ∧
          samples j = (pollAux samples fuel i prev stable).1) := by
  intro fuel
  induction fuel with
  | zero =>
    intro i prev stable h1 _
    refine ⟨Nat.le_refl _, Nat.le_add_right _ _, ?_, ?_⟩
    · intro he; cases he
    · intro _
      rcases h1 with h1 | ⟨j, hj, hs⟩
      · exact Or.inl h1
      · exact Or.inr ⟨j, hj, hs⟩
  | succ f ih =>
    intro i prev stable h1 h2
    simp only [pollAux]
    by_cases hskip : samples i = [] ∨ containsSub "[...]".toList (samples i) = true
    · rw [if_pos hskip]
      have h1' : prev = [] ∨ ∃ j, j < i + 1 ∧ samples j = prev := by
        rcases h1 with h | ⟨j, hj, hs⟩
        · exact Or.inl h
        · exact Or.inr ⟨j, by omega, hs⟩
      have h2' : prev ≠ [] → ∃ l : List Nat, l.length = stable + 1 ∧
          l.Pairwise (· < ·) ∧ ∀ j ∈ l, j < i + 1 ∧ samples j = prev := by
        intro hne
        obtain ⟨l, hl1, hl2, hl3⟩ := h2 hne
        exact ⟨l, hl1, hl2, fun j hj => ⟨by have := (hl3 j hj).1; omega, (hl3 j hj).2⟩⟩
      obtain ⟨g1, g2, g3, g4⟩ := ih (i + 1) prev stable h1' h2'
      exact ⟨by omega, by omega, g3, g4⟩
    · rw [if_neg hskip]
      have hne : samples i ≠ [] := fun h => hskip (Or.inl h)
      by_cases hneq : samples i ≠ prev
      · rw [if_pos hneq]
        have h1' : samples i = [] ∨ ∃ j, j < i + 1 ∧ samples j = samples i :=
          Or.inr ⟨i, by omega, rfl⟩
        have h2' : samples i ≠ [] → ∃ l : List Nat, l.length = 0 + 1 ∧
            l.Pairwise (· < ·) ∧ ∀ j ∈ l, j < i + 1 ∧ samples j = samples i := by
          intro _
          refine ⟨[i], rfl, List.pairwise_singleton _ _, ?_⟩
          intro j hj
          rw [List.mem_singleton] at hj
          subst hj
          exact ⟨by omega, rfl⟩
        obtain ⟨g1, g2, g3, g4⟩ := ih (i + 1) (samples i) 0 h1' h2'
        exact ⟨by omega, by omega, g3, g4⟩
      · rw [if_neg hneq]
        rw [not_not] at hneq
        by_cases hret : 3 ≤ stable + 1 ∧ pyStrip (samples i) ≠ []
        · rw [if_pos hret]
          dsimp only
          refine ⟨by omega, by omega, ?_, ?_⟩
          · intro _
            refine ⟨hret.2, ?_⟩
            have hpne : prev ≠ [] := by rw [← hneq]; exact hne
            obtain ⟨l, hl1, hl2, hl3⟩ := h2 hpne
            refine ⟨l ++ [i], ?_, ?_, ?_⟩
            · rw [List.length_append, hl1]
              simp only [List.length_singleton]
              omega
            · rw [List.pairwise_append]
              refine ⟨hl2, List.pairwise_singleton _ _, ?_⟩
              intro a ha b hb
              rw [List.mem_singleton] at hb
              subst hb
              exact (hl3 a ha).1
            · intro j hj
              rw [List.mem_append, List.mem_singleton] at hj
              rcases hj with hj | rfl
              · exact ⟨by have := (hl3 j hj).1; omega, (hl3 j hj).2.trans hneq.symm⟩
              · exact ⟨by omega, rfl⟩
          · intro hfalse; cases hfalse
        · rw [if_neg hret]
          have h1' : samples i = [] ∨ ∃ j, j < i + 1 ∧ samples j = samples i :=
            Or.inr ⟨i, by omega, rfl⟩
          have h2' : samples i ≠ [] → ∃ l : List Nat, l.length = stable + 1 + 1 ∧
              l.Pairwise (· < ·) ∧ ∀ j ∈ l, j < i + 1 ∧ samples j = samples i := by
            intro _
            have hpne : prev ≠ [] := by rw [← hneq]; exact hne
            obtain ⟨l, hl1, hl2, hl3⟩ := h2 hpne
            refine ⟨l ++ [i], ?_, ?_, ?_⟩
            · rw [List.length_append, hl1]
              simp only [List.length_singleton]
            · rw [List.pairwise_append]
              refine ⟨hl2, List.pairwise_singleton _ _, ?_⟩
              intro a ha b hb
              rw [List.mem_singleton] at hb
              subst hb
              exact (hl3 a ha).1
            · intro j hj
              rw [List.mem_append, List.mem_singleton] at hj
              rcases hj with hj | rfl
              · exact ⟨by have := (hl3 j hj).1; omega, (hl3 j hj).2.trans hneq.symm⟩
              · exact ⟨by omega, rfl⟩
          obtain ⟨g1, g2, g3, g4⟩ := ih (i + 1) (samples i) (stable + 1) h1' h2'
          exact ⟨by omega, by omega, g3, g4⟩

/-- Claim C9: the stability loop samples the output box at most 60 times;
it returns early only with a text that is non-blank and was observed
unchanged across three consecutive valid comparisons (four equal samples at
increasing indices); and on exhausting the bound it returns the last
observed (possibly partial or empty) text — the loop is a total function,
so no failure is raised. -/
theorem c9_poll_bounded (samples : Nat → PyStr) :
    (poll_loop samples).2.2 ≤ 60 ∧
    ((poll_loop samples).2.1 = true →
      pyStrip (poll_loop samples).1 ≠ [] ∧
      ∃ l : List Nat, 4 ≤ l.length ∧ l.Pairwise (· < ·) ∧
        ∀ j ∈ l, j < (poll_loop samples).2.2 ∧ samples j = (poll_loop samples).1) ∧
    ((poll_loop samples).2.1 = false →
      (poll_loop samples).1 = [] ∨
      ∃ j, j < (poll_loop samples).2.2 ∧ samples j = (poll_loop samples).1) := by
  have h := pollAux_spec samples 60 0 [] 0 (Or.inl rfl) (fun hne => absurd rfl hne)
  exact ⟨by have := h.2.1; simpa using this, h.2.2.1, h.2.2.2⟩

/-- Witness for C9: a channel holding a constant non-empty answer makes the
loop stop early (within the bound) with a non-blank result. -/
theorem c9_witness :
    (poll_loop (fun _ => ['a'])).2.2 ≤ 60 ∧
    pyStrip (poll_loop (fun _ => ['a'])).1 ≠ [] := by
  have h := c9_poll_bounded (fun _ => ['a'])
  exact ⟨h.1, (h.2.1 (by decide)).1⟩

/-- Single-character replacement acts characterwise. -/
theorem replAux_single (p : Char) (rep : PyStr) :
    ∀ s : PyStr, replAux p [] rep 0 s = s.flatMap fun c => if c = p then rep else [c] := by
  intro s
  induction s with
  | nil => rfl
  | cons c cs ih =>
    by_cases hc : c = p
    · rw [replAux, if_pos ⟨hc, by simp [List.isPrefixOf]⟩]
      simp only [List.length_nil, List.flatMap_cons, if_pos hc]
      rw [ih]
    · rw [replAux, if_neg (by simp [hc])]
      simp only [List.flatMap_cons, if_neg hc]
      rw [ih]
      rfl

theorem collapseNL_eq_map (s : PyStr) :
    collapseNL s = s.map fun c => if c = '\n' then ' ' else c := by
  rw [collapseNL, pyReplace, replAux_single]
  induction s with
  | nil => rfl
  | cons c cs ih =>
    by_cases hc : c = '\n' <;> simp [hc, ih]

theorem escLt_eq (s : PyStr) :
    escLt s = s.flatMap fun c => if c = '<' then "&lt;".toList else [c] :=
  replAux_single _ _ s

theorem escGt_eq (s : PyStr) :
    escGt s = s.flatMap fun c => if c = '>' then "&gt;".toList else [c] :=
  replAux_single _ _ s

/-- The two escapes compose into the characterwise map `escChar`. -/
theorem esc_decomp (x : PyStr) : escGt (escLt x) = x.flatMap escChar := by
  rw [escLt_eq]
  induction x with
  | nil => rfl
  | cons c cs ih =>
    rw [List.flatMap_cons, List.flatMap_cons]
    have hdist : ∀ a b : PyStr, escGt (a ++ b) = escGt a ++ escGt b := by
      intro a b
      rw [escGt_eq, escGt_eq, escGt_eq, List.flatMap_append]
    rw [hdist]
    by_cases h1 : c = '<'
    · subst h1
      rw [if_pos rfl]
      have : escGt "&lt;".toList = "&lt;".toList := by decide
      rw [this, ih]
      rfl
    · rw [if_neg h1]
      by_cases h2 : c = '>'
      · subst h2
        have : escGt ['>'] = "&gt;".toList := by decide
        rw [this, ih]
        simp [escChar]
      · have : escGt [c] = [c] := by
          rw [escGt_eq]
          simp [h2]
        rw [this, ih]
        simp [escChar, h1, h2]

/-- Absence of a substring passes to the tail. -/
theorem containsSub_tail (pat : PyStr) (c : Char) (cs : PyStr)
    (h : containsSub pat (c :: cs) = false) : containsSub pat cs = false := by
  rw [containsSub, Bool.or_eq_false_iff] at h
  exact h.2

/-- Absence of a substring also rules the head position out. -/
theorem containsSub_head (pat : PyStr) (c : Char) (cs : PyStr)
    (h : containsSub pat (c :: cs) = false) : pat.isPrefixOf (c :: cs) = false := by
  rw [containsSub, Bool.or_eq_false_iff] at h
  exact h.1

/-- A prefix match against a characterwise image pulls back to the source
when the pattern head is an ordinary character (every image is either the
character itself or an `'&'`-led escape). -/
theorem prefix_flatMap_normal (f : Char → PyStr)
    (hf : ∀ c, f c = [c] ∨ ∃ t, f c = '&' :: t) (d : Char) (pat cs : PyStr)
    (hd : d ≠ '&') (h : (d :: pat).isPrefixOf (cs.flatMap f) = true) :
    ∃ cs', cs = d :: cs' ∧ pat.isPrefixOf (cs'.flatMap f) = true := by
  cases cs with
  | nil => simp [List.isPrefixOf] at h
  | cons c1 cs1 =>
    rw [List.flatMap_cons] at h
    rcases hf c1 with hc | ⟨t, hc⟩
    · rw [hc] at h
      rw [List.cons_append, List.nil_append, List.isPrefixOf, Bool.and_eq_true,
        beq_iff_eq] at h
      exact ⟨cs1, by rw [h.1], h.2⟩
    · rw [hc] at h
      rw [List.cons_append, List.isPrefixOf, Bool.and_eq_true, beq_iff_eq] at h
      exact absurd h.1 hd

/-- Helper: the `escChar` image can only start with `"lt;"` when the source
itself starts with `"lt;"`. -/
theorem flatMap_starts_lt (cs : PyStr)
    (h : ("lt;".toList).isPrefixOf (cs.flatMap escChar) = true) :
    ∃ cs', cs = 'l' :: 't' :: ';' :: cs' := by
  have hf : ∀ c, escChar c = [c] ∨ ∃ t, escChar c = '&' :: t := by
    intro c
    by_cases h1 : c = '<'
    · exact Or.inr ⟨"lt;".toList, by simp [escChar, h1]⟩
    · by_cases h2 : c = '>'
      · exact Or.inr ⟨"gt;".toList, by simp [escChar, h1, h2]⟩
      · exact Or.inl (by simp [escChar, h1, h2])
  obtain ⟨cs1, rfl, h1⟩ := prefix_flatMap_normal escChar hf 'l' _ cs (by decide) h
  obtain ⟨cs2, rfl, h2⟩ := prefix_flatMap_normal escChar hf 't' _ cs1 (by decide) h1
  obtain ⟨cs3, rfl, _⟩ := prefix_flatMap_normal escChar hf ';' _ cs2 (by decide) h2
  exact ⟨cs3, rfl⟩

/-- Helper: the `escChar2` image can only start with `"gt;"` when the
source itself starts with `"gt;"`. -/
theorem flatMap2_starts_gt (cs : PyStr)
    (h : ("gt;".toList).isPrefixOf (cs.flatMap escChar2) = true) :
    ∃ cs', cs = 'g' :: 't' :: ';' :: cs' := by
  have hf : ∀ c, escChar2 c = [c] ∨ ∃ t, escChar2 c = '&' :: t := by
    intro c
    by_cases h2 : c = '>'
    · exact Or.inr ⟨"gt;".toList, by simp [escChar2, h2]⟩
    · exact Or.inl (by simp [escChar2, h2])
  obtain ⟨cs1, rfl, h1⟩ := prefix_flatMap_normal escChar2 hf 'g' _ cs (by decide) h
  obtain ⟨cs2, rfl, h2'⟩ := prefix_flatMap_normal escChar2 hf 't' _ cs1 (by decide) h1
  obtain ⟨cs3, rfl, _⟩ := prefix_flatMap_normal escChar2 hf ';' _ cs2 (by decide) h2'
  exact ⟨cs3, rfl⟩

/-- `unescLt` consumes an `"&lt;"` block into `'<'`. -/
theorem unescLt_block (r : PyStr) :
    unescLt ('&' :: 'l' :: 't' :: ';' :: r) = '<' :: unescLt r := by
  simp [unescLt, pyReplace, replAux, List.isPrefixOf]

/-- `unescLt` keeps a character that does not open an `"&lt;"` match. -/
theorem unescLt_step (c : Char) (r : PyStr)
    (h : ¬(c = '&' ∧ ("lt;".toList).isPrefixOf r = true)) :
    unescLt (c :: r) = c :: unescLt r := by
  rw [unescLt, pyReplace, replAux, if_neg h]
  rfl

/-- `unescGt` consumes an `"&gt;"` block into `'>'`. -/
theorem unescGt_block (r : PyStr) :
    unescGt ('&' :: 'g' :: 't' :: ';' :: r) = '>' :: unescGt r := by
  simp [unescGt, pyReplace, replAux, List.isPrefixOf]

/-- `unescGt` keeps a character that does not open an `"&gt;"` match. -/
theorem unescGt_step (c : Char) (r : PyStr)
    (h : ¬(c = '&' ∧ ("gt;".toList).isPrefixOf r = true)) :
    unescGt (c :: r) = c :: unescGt r := by
  rw [unescGt, pyReplace, replAux, if_neg h]
  rfl

/-- Undoing the `'<'` escape on an escaped string restores `'<'` and keeps
everything else, provided the source has no literal `"&lt;"`. -/
theorem unescLt_flatMap (x : PyStr) (hx : containsSub "&lt;".toList x = false) :
    unescLt (x.flatMap escChar) = x.flatMap escChar2 := by
  induction x with
  | nil => rfl
  | cons c cs ih =>
    have hx' := containsSub_tail _ _ _ hx
    rw [List.flatMap_cons, List.flatMap_cons]
    by_cases h1 : c = '<'
    · subst h1
      rw [show escChar '<' = ['&', 'l', 't', ';'] from by decide,
        show escChar2 '<' = ['<'] from by decide]
      simp only [List.cons_append, List.nil_append, List.singleton_append]
      rw [unescLt_block, ih hx']
    · by_cases h2 : c = '>'
      · subst h2
        rw [show escChar '>' = ['&', 'g', 't', ';'] from by decide,
          show escChar2 '>' = ['&', 'g', 't', ';'] from by decide]
        simp only [List.cons_append, List.nil_append]
        rw [unescLt_step '&' _ (by
          rintro ⟨-, hpre⟩
          simp [List.isPrefixOf] at hpre)]
        rw [unescLt_step 'g' _ (by rintro ⟨h, -⟩; exact absurd h (by decide))]
        rw [unescLt_step 't' _ (by rintro ⟨h, -⟩; exact absurd h (by decide))]
        rw [unescLt_step ';' _ (by rintro ⟨h, -⟩; exact absurd h (by decide))]
        rw [ih hx']
      · have hesc : escChar c = [c] := by simp [escChar, h1, h2]
        have hesc2 : escChar2 c = [c] := by simp [escChar2, h2]
        rw [hesc, hesc2, List.singleton_append, List.singleton_append]
        by_cases h3 : c = '&'
        · subst h3
          rw [unescLt_step '&' _ ?hcond]
          · rw [ih hx']
          case hcond =>
            rintro ⟨-, hpre⟩
            obtain ⟨cs', rfl⟩ := flatMap_starts_lt cs hpre
            have := containsSub_head "&lt;".toList '&' _ hx
            simp [List.isPrefixOf] at this
        · rw [unescLt_step c _ (by rintro ⟨h, -⟩; exact h3 h)]
          rw [ih hx']

/-- Undoing the `'>'` escape restores the original string, provided it has
no literal `"&gt;"`. -/
theorem unescGt_flatMap (x : PyStr) (hx : containsSub "&gt;".toList x = false) :
    unescGt (x.flatMap escChar2) = x := by
  induction x with
  | nil => rfl
  | cons c cs ih =>
    have hx' := containsSub_tail _ _ _ hx
    rw [List.flatMap_cons]
    by_cases h2 : c = '>'
    · subst h2
      rw [show escChar2 '>' = ['&', 'g', 't', ';'] from by decide]
      simp only [List.cons_append, List.nil_append]
      rw [unescGt_block, ih hx']
    · have hesc : escChar2 c = [c] := by simp [escChar2, h2]
      rw [hesc, List.singleton_append]
      by_cases h3 : c = '&'
      · subst h3
        rw [unescGt_step '&' _ ?hcond]
        · rw [ih hx']
        case hcond =>
          rintro ⟨-, hpre⟩
          obtain ⟨cs', rfl⟩ := flatMap2_starts_gt cs hpre
          have := containsSub_head "&gt;".toList '&' _ hx
          simp [List.isPrefixOf] at this
      · rw [unescGt_step c _ (by rintro ⟨h, -⟩; exact h3 h)]
        rw [ih hx']

/-- The head surviving `dropWhile` falsifies the predicate. -/
theorem head_dropWhile_not (p : Char → Bool) (l : PyStr) :
    ∀ c, (l.dropWhile p).head? = some c → p c = false := by
  induction l with
  | nil => intro c h; cases h
  | cons a l ih =>
    intro c h
    rw [List.dropWhile_cons] at h
    by_cases ha : p a = true
    · exact ih c (by rwa [if_pos ha] at h)
    · rw [if_neg ha] at h
      cases h
      exact Bool.not_eq_true _ |>.mp ha

/-- A string whose first and last characters are not whitespace is fixed
by `strip()`. -/
theorem pyStrip_eq_self (v : PyStr)
    (hh : ∀ c, v.head? = some c → isPySpace c = false)
    (hl : ∀ c, v.getLast? = some c → isPySpace c = false) : pyStrip v = v := by
  unfold pyStrip
  have e1 : v.dropWhile isPySpace = v := by
    cases v with
    | nil => rfl
    | cons a l => rw [List.dropWhile_cons, if_neg (by simp [hh a rfl])]
  rw [e1]
  have e2 : v.reverse.dropWhile isPySpace = v.reverse := by
    cases hv : v.reverse with
    | nil => rfl
    | cons a l =>
      have ha : v.getLast? = some a := by
        rw [← List.head?_reverse, hv]
        rfl
      rw [List.dropWhile_cons, if_neg (by simp [hl a ha])]
  rw [e2, List.reverse_reverse]

/-- The first character remaining after `strip()` is not whitespace. -/
theorem pyStrip_head (s : PyStr) :
    ∀ c, (pyStrip s).head? = some c → isPySpace c = false := by
  intro c h
  unfold pyStrip at h
  rw [List.head?_reverse] at h
  obtain ⟨w, hw⟩ :=
    List.dropWhile_suffix (l := (s.dropWhile isPySpace).reverse) (p := isPySpace)
  have hne : (s.dropWhile isPySpace).reverse.dropWhile isPySpace ≠ [] := by
    intro hnil
    rw [hnil] at h
    cases h
  have h3 : (w ++ (s.dropWhile isPySpace).reverse.dropWhile isPySpace).getLast? = some c := by
    rw [List.getLast?_append_of_ne_nil _ hne]
    exact h
  rw [hw, List.getLast?_reverse] at h3
  exact head_dropWhile_not _ _ _ h3

/-- The last character remaining after `strip()` is not whitespace. -/
theorem pyStrip_last (s : PyStr) :
    ∀ c, (pyStrip s).getLast? = some c → isPySpace c = false := by
  intro c h
  unfold pyStrip at h
  rw [List.getLast?_reverse] at h
  exact head_dropWhile_not _ _ _ h

/-- `sanitize` is the characterwise escape of the collapsed, stripped text. -/
theorem sanitize_eq_flatMap (s : PyStr) :
    sanitize s = (collapseNL (pyStrip s)).flatMap escChar :=
  esc_decomp _

/-- Heads stay non-whitespace under the characterwise escape. -/
theorem flatMap_esc_head_not_space (u : PyStr)
    (hh : ∀ c, u.head? = some c → isPySpace c = false) :
    ∀ d, (u.flatMap escChar).head? = some d → isPySpace d = false := by
  cases u with
  | nil => intro d h; cases h
  | cons c cs =>
    intro d h
    rw [List.flatMap_cons] at h
    have hc := hh c rfl
    by_cases h1 : c = '<'
    · rw [h1, show escChar '<' = ['&', 'l', 't', ';'] from by decide] at h
      cases h
      decide
    · by_cases h2 : c = '>'
      · rw [h2, show escChar '>' = ['&', 'g', 't', ';'] from by decide] at h
        cases h
        decide
      · rw [show escChar c = [c] from by simp [escChar, h1, h2],
          List.singleton_append] at h
        cases h
        exact hc

/-- Last characters stay non-whitespace under the characterwise escape. -/
theorem flatMap_esc_last_not_space (u : PyStr)
    (hl : ∀ c, u.getLast? = some c → isPySpace c = false) :
    ∀ d, (u.flatMap escChar).getLast? = some d → isPySpace d = false := by
  rcases List.eq_nil_or_concat u with rfl | ⟨ys, y, rfl⟩
  · intro d h; cases h
  · intro d h
    rw [List.concat_eq_append] at h hl
    rw [List.flatMap_append, List.flatMap_cons, List.flatMap_nil, List.append_nil] at h
    have hy : escChar y ≠ [] := by
      by_cases h1 : y = '<'
      · simp [escChar, h1]
      · by_cases h2 : y = '>' <;> simp [escChar, h1, h2]
    rw [List.getLast?_append_of_ne_nil _ hy] at h
    by_cases h1 : y = '<'
    · rw [h1, show escChar '<' = ['&', 'l', 't', ';'] from by decide] at h
      rw [show (['&', 'l', 't', ';'] : PyStr).getLast? = some ';' from by decide] at h
      cases h
      decide
    · by_cases h2 : y = '>'
      · rw [h2, show escChar '>' = ['&', 'g', 't', ';'] from by decide] at h
        rw [show (['&', 'g', 't', ';'] : PyStr).getLast? = some ';' from by decide] at h
        cases h
        decide
      · rw [show escChar y = [y] from by simp [escChar, h1, h2]] at h
        rw [show ([y] : PyStr).getLast? = some y from rfl] at h
        cases h
        exact hl y (List.getLast?_concat _)

/-- The collapsed, stripped text has a non-whitespace head. -/
theorem collapse_head_not_space (s : PyStr) :
    ∀ c, (collapseNL (pyStrip s)).head? = some c → isPySpace c = false := by
  intro c h
  rw [collapseNL_eq_map, List.head?_map] at h
  cases hh : (pyStrip s).head? with
  | none => rw [hh] at h; cases h
  | some c0 =>
    rw [hh] at h
    have h0 := pyStrip_head s c0 hh
    have hc0 : c0 ≠ '\n' := by
      intro hc
      rw [hc] at h0
      cases h0
    have hc : (if c0 = '\n' then ' ' else c0) = c := by
      simpa using h
    rw [← hc, if_neg hc0]
    exact h0

/-- The collapsed, stripped text has a non-whitespace last character. -/
theorem collapse_last_not_space (s : PyStr) :
    ∀ c, (collapseNL (pyStrip s)).getLast? = some c → isPySpace c = false := by
  intro c h
  rw [collapseNL_eq_map, List.getLast?_map] at h
  cases hh : (pyStrip s).getLast? with
  | none => rw [hh] at h; cases h
  | some c0 =>
    rw [hh] at h
    have h0 := pyStrip_last s c0 hh
    have hc0 : c0 ≠ '\n' := by
      intro hc
      rw [hc] at h0
      cases h0
    have hc : (if c0 = '\n' then ' ' else c0) = c := by
      simpa using h
    rw [← hc, if_neg hc0]
    exact h0

/-- `strip()` leaves the sanitized text unchanged. -/
theorem strip_sanitize (s : PyStr) : pyStrip (sanitize s) = sanitize s := by
  rw [sanitize_eq_flatMap]
  exact pyStrip_eq_self _
    (flatMap_esc_head_not_space _ (collapse_head_not_space s))
    (flatMap_esc_last_not_space _ (collapse_last_not_space s))

/-- Members of an escaped character are the character itself or one of the
escape letters. -/
theorem mem_escChar (e c : Char) (h : c ∈ escChar e) :
    c = e ∨ c ∈ (['&', 'l', 't', ';', 'g'] : List Char) := by
  by_cases h1 : e = '<'
  · right
    rw [h1, show escChar '<' = ['&', 'l', 't', ';'] from by decide] at h
    simp at h ⊢
    tauto
  · by_cases h2 : e = '>'
    · right
      rw [h2, show escChar '>' = ['&', 'g', 't', ';'] from by decide] at h
      simp at h ⊢
      tauto
    · rw [show escChar e = [e] from by simp [escChar, h1, h2], List.mem_singleton] at h
      exact Or.inl h

/-- The sanitized text contains no line break. -/
theorem sanitize_no_newline (s : PyStr) : '\n' ∉ sanitize s := by
  rw [sanitize_eq_flatMap]
  intro h
  rw [List.mem_flatMap] at h
  obtain ⟨c, hc, hmem⟩ := h
  rcases mem_escChar c '\n' hmem with hce | hbad
  · rw [collapseNL_eq_map, List.mem_map] at hc
    obtain ⟨d, _, hd⟩ := hc
    rw [← hce] at hd
    by_cases hdn : d = '\n'
    · rw [if_pos hdn] at hd
      exact absurd hd (by decide)
    · rw [if_neg hdn] at hd
      exact hdn hd
  · exact absurd hbad (by decide)

/-- Prefix matches against a characterwise image pull back to the source
for patterns whose characters are only hit by themselves. -/
theorem isPrefixOf_map (g : Char → Char) (pat : PyStr)
    (hp : ∀ c ∈ pat, ∀ d, g d = c → d = c) :
    ∀ s, pat.isPrefixOf (s.map g) = true → pat.isPrefixOf s = true := by
  induction pat with
  | nil => intro s _; cases s <;> rfl
  | cons a pat ih =>
    intro s h
    cases s with
    | nil => cases h
    | cons b s' =>
      rw [List.map_cons, List.isPrefixOf, Bool.and_eq_true, beq_iff_eq] at h
      have hb : b = a := hp a (List.mem_cons_self _ _) b h.1.symm
      rw [List.isPrefixOf, Bool.and_eq_true, beq_iff_eq]
      exact ⟨hb.symm, ih (fun c hc d hd => hp c (List.mem_cons_of_mem _ hc) d hd) s' h.2⟩

/-- Substring occurrences in a characterwise image pull back likewise. -/
theorem containsSub_map (g : Char → Char) (pat : PyStr)
    (hp : ∀ c ∈ pat, ∀ d, g d = c → d = c) :
    ∀ s, containsSub pat (s.map g) = true → containsSub pat s = true := by
  intro s
  induction s with
  | nil => intro h; exact h
  | cons b s' ih =>
    intro h
    rw [List.map_cons, containsSub, Bool.or_eq_true] at h
    rw [containsSub, Bool.or_eq_true]
    rcases h with h | h
    · exact Or.inl (isPrefixOf_map g pat hp (b :: s') (by rwa [List.map_cons]))
    · exact Or.inr (ih h)

/-- Collapsing newlines cannot create an occurrence of a pattern free of
`'\n'` and `' '`. -/
theorem containsSub_collapse (pat s : PyStr)
    (hpat : ∀ c ∈ pat, c ≠ '\n' ∧ c ≠ ' ')
    (h : containsSub pat s = false) : containsSub pat (collapseNL s) = false := by
  rw [collapseNL_eq_map]
  cases hb : containsSub pat (s.map fun c => if c = '\n' then ' ' else c) with
  | false => rfl
  | true =>
    have hp : ∀ c ∈ pat, ∀ d, (if d = '\n' then ' ' else d) = c → d = c := by
      intro c hc d hd
      by_cases hdn : d = '\n'
      · rw [if_pos hdn] at hd
        exact absurd hd.symm (hpat c hc).2
      · rwa [if_neg hdn] at hd
    have := containsSub_map _ pat hp s hb
    rw [h] at this
    cases this

/-- The accumulator of the decimal renderer is a suffix, and any adequate
fuel produces the canonical digits. -/
theorem toDecCore_append (n : Nat) :
    ∀ fuel acc, n < fuel → toDecCore fuel n acc = toDecCore (n + 1) n [] ++ acc := by
  induction n using Nat.strong_induction_on with
  | _ n ih =>
    intro fuel acc hf
    obtain ⟨f, rfl⟩ : ∃ f, fuel = f + 1 := ⟨fuel - 1, by omega⟩
    by_cases h10 : n < 10
    · rw [toDecCore, if_pos h10, toDecCore, if_pos h10]
      rfl
    · have hdiv : n / 10 < n := Nat.div_lt_self (by omega) (by omega)
      rw [toDecCore, if_neg h10, toDecCore, if_neg h10]
      rw [ih (n / 10) hdiv f _ (by omega), ih (n / 10) hdiv n _ (by omega)]
      simp

theorem toDec_small (n : Nat) (h : n < 10) :
    toDec n = [Char.ofNat (48 + n % 10)] := by
  rw [toDec, toDecCore, if_pos h]

theorem toDec_large (n : Nat) (h : ¬ n < 10) :
    toDec n = toDec (n / 10) ++ [Char.ofNat (48 + n % 10)] := by
  rw [toDec, toDecCore, if_neg h, toDec]
  exact toDecCore_append (n / 10) n _ (by
    have := Nat.div_lt_self (show 0 < n by omega) (show 1 < 10 by omega)
    omega)

theorem toDec_ne_nil (n : Nat) : toDec n ≠ [] := by
  by_cases h : n < 10
  · rw [toDec_small n h]
    simp
  · rw [toDec_large n h]
    simp

theorem toDec_digits (n : Nat) : ∀ c ∈ toDec n, isDigitCh c = true := by
  induction n using Nat.strong_induction_on with
  | _ n ih =>
    intro c hc
    have hdig : ∀ m : Nat, m < 10 → isDigitCh (Char.ofNat (48 + m)) = true := by
      intro m hm
      interval_cases m <;> decide
    by_cases h : n < 10
    · rw [toDec_small n h, List.mem_singleton] at hc
      subst hc
      exact hdig _ (Nat.mod_lt _ (by omega))
    · rw [toDec_large n h, List.mem_append, List.mem_singleton] at hc
      rcases hc with hc | rfl
      · exact ih (n / 10) (Nat.div_lt_self (by omega) (by omega)) c hc
      · exact hdig _ (Nat.mod_lt _ (by omega))

/-- The decimal renderer and Python's `int` are mutually inverse. -/
theorem parseDec_aux (n : Nat) :
    ∀ a : Nat, (toDec n).foldl (fun a c => a * 10 + (c.toNat - 48)) a
      = a * 10 ^ (toDec n).length + n := by
  induction n using Nat.strong_induction_on with
  | _ n ih =>
    intro a
    have hchar : ∀ m : Nat, m < 10 → (Char.ofNat (48 + m)).toNat = 48 + m := by
      intro m hm
      interval_cases m <;> decide
    by_cases h : n < 10
    · rw [toDec_small n h]
      simp only [List.foldl_cons, List.foldl_nil, List.length_singleton]
      rw [hchar _ (Nat.mod_lt _ (by omega))]
      have : n % 10 = n := Nat.mod_eq_of_lt h
      rw [this]
      ring_nf
      omega
    · have hdiv : n / 10 < n := Nat.div_lt_self (by omega) (by omega)
      rw [toDec_large n h]
      rw [List.foldl_append]
      rw [ih (n / 10) hdiv a]
      simp only [List.foldl_cons, List.foldl_nil, List.length_append,
        List.length_singleton]
      rw [hchar _ (Nat.mod_lt _ (by omega))]
      have hmod := Nat.div_add_mod n 10
      have hpow : (10 : Nat) ^ ((toDec (n / 10)).length + 1)
          = 10 ^ (toDec (n / 10)).length * 10 := pow_succ _ _
      rw [hpow]
      have : (a * 10 ^ (toDec (n / 10)).length + n / 10) * 10 + (48 + n % 10 - 48)
          = a * (10 ^ (toDec (n / 10)).length * 10) + (n / 10 * 10 + n % 10) := by
        ring_nf
        omega
      rw [this]
      congr 1
      omega

theorem parseDec_toDec (n : Nat) : parseDec (toDec n) = n := by
  rw [parseDec, parseDec_aux n 0]
  simp

/-- `takeWhile`/`dropWhile` split exactly at the first failing character. -/
theorem takeWhile_append_stop (p : Char → Bool) :
    ∀ (xs : PyStr) (y : Char) (ys : PyStr), (∀ x ∈ xs, p x = true) → p y = false →
      (xs ++ y :: ys).takeWhile p = xs ∧ (xs ++ y :: ys).dropWhile p = y :: ys := by
  intro xs
  induction xs with
  | nil =>
    intro y ys _ hy
    constructor
    · rw [List.nil_append, List.takeWhile_cons, if_neg (by simp [hy])]
    · rw [List.nil_append, List.dropWhile_cons, if_neg (by simp [hy])]
  | cons x xs ih =>
    intro y ys hxs hy
    have hx : p x = true := hxs x (List.mem_cons_self _ _)
    obtain ⟨h1, h2⟩ := ih y ys (fun a ha => hxs a (List.mem_cons_of_mem _ ha)) hy
    constructor
    · rw [List.cons_append, List.takeWhile_cons, if_pos (by simp [hx]), h1]
    · rw [List.cons_append, List.dropWhile_cons, if_pos (by simp [hx]), h2]

/-- Without a line break the lazy group swallows the whole string. -/
theorem lazyLen_no_nl (b : PyStr) (h : '\n' ∉ b) : lazyLen b = b.length := by
  induction b with
  | nil => rfl
  | cons c cs ih =>
    have hc : c ≠ '\n' := fun hc => h (hc ▸ List.mem_cons_self _ _)
    rw [lazyLen, if_neg (by rintro ⟨h', -⟩; exact hc h')]
    rw [ih (fun h' => h (List.mem_cons_of_mem _ h'))]
    rfl

/-- The lazy group stops exactly before a `"\n<"` separator. -/
theorem lazyLen_append_nl (b r : PyStr) (h : '\n' ∉ b) :
    lazyLen (b ++ '\n' :: '<' :: r) = b.length := by
  induction b with
  | nil =>
    rw [List.nil_append, lazyLen, if_pos ⟨rfl, rfl⟩]
    rfl
  | cons c cs ih =>
    have hc : c ≠ '\n' := fun hc => h (hc ▸ List.mem_cons_self _ _)
    rw [List.cons_append, lazyLen, if_neg (by rintro ⟨h', -⟩; exact hc h')]
    rw [ih (fun h' => h (List.mem_cons_of_mem _ h'))]
    rfl

theorem joinNL_cons_cons (l l2 : PyStr) (ls : List PyStr) :
    joinNL (l :: l2 :: ls) = l ++ '\n' :: joinNL (l2 :: ls) := rfl

/-- A non-empty anchored payload starts with `'<'`. -/
theorem anchorPayload_cons_head (q : Nat × PyStr) (ps : List (Nat × PyStr)) :
    ∃ r, anchorPayload (q :: ps) = '<' :: r := by
  unfold anchorPayload anchorLines
  rw [List.map_cons]
  cases ps with
  | nil => exact ⟨_, rfl⟩
  | cons q2 ps2 =>
    rw [List.map_cons, joinNL_cons_cons]
    exact ⟨_, rfl⟩

/-- Scanning an anchored payload recovers exactly the positions and bodies,
for any adequate fuel. -/
theorem scanAux_anchor :
    ∀ (ps : List (Nat × PyStr)) (fuel : Nat),
      (anchorPayload ps).length ≤ fuel →
      (∀ q ∈ ps, '\n' ∉ q.2) →
      scanAux fuel (anchorPayload ps) = ps.map fun q => (toDec q.1, q.2) := by
  intro ps
  induction ps with
  | nil =>
    intro fuel _ _
    cases fuel <;> rfl
  | cons q ps ih =>
    intro fuel hf hnl
    have hnlq : '\n' ∉ q.2 := hnl q (List.mem_cons_self _ _)
    have hnl' : ∀ p ∈ ps, '\n' ∉ p.2 := fun p hp => hnl p (List.mem_cons_of_mem _ hp)
    cases ps with
    | nil =>
      have hpay : anchorPayload [q] = '<' :: (toDec q.1 ++ '>' :: q.2) := rfl
      rw [hpay] at hf ⊢
      obtain ⟨f, rfl⟩ : ∃ f, fuel = f + 1 := ⟨fuel - 1, by
        simp only [List.length_cons] at hf
        omega⟩
      rw [scanAux]
      obtain ⟨ht, hd⟩ := takeWhile_append_stop isDigitCh (toDec q.1) '>' q.2
        (toDec_digits q.1) (by decide)
      rw [if_pos ?hcond]
      case hcond =>
        refine ⟨rfl, ?_, ?_⟩
        · rw [ht]; exact toDec_ne_nil q.1
        · rw [hd]; rfl
      rw [ht, hd]
      simp only [List.tail_cons]
      rw [lazyLen_no_nl q.2 hnlq, List.take_length, List.drop_length]
      have : scanAux f [] = [] := by cases f <;> rfl
      rw [this]
      rfl
    | cons q2 ps2 =>
      have hpay : anchorPayload (q :: q2 :: ps2)
          = '<' :: (toDec q.1 ++ '>' :: (q.2 ++ '\n' :: anchorPayload (q2 :: ps2))) := by
        unfold anchorPayload anchorLines
        rw [List.map_cons, List.map_cons, joinNL_cons_cons]
        simp [List.cons_append, List.append_assoc]
      rw [hpay] at hf ⊢
      obtain ⟨f, rfl⟩ : ∃ f, fuel = f + 1 := ⟨fuel - 1, by
        simp only [List.length_cons] at hf
        omega⟩
      rw [scanAux]
      obtain ⟨ht, hd⟩ := takeWhile_append_stop isDigitCh (toDec q.1) '>'
        (q.2 ++ '\n' :: anchorPayload (q2 :: ps2)) (toDec_digits q.1) (by decide)
      rw [if_pos ?hcond2]
      case hcond2 =>
        refine ⟨rfl, ?_, ?_⟩
        · rw [ht]; exact toDec_ne_nil q.1
        · rw [hd]; rfl
      rw [ht, hd]
      simp only [List.tail_cons]
      obtain ⟨r, hr⟩ := anchorPayload_cons_head q2 ps2
      rw [hr, lazyLen_append_nl q.2 r hnlq, ← hr]
      rw [List.take_left, List.drop_left]
      have hlen2 : (anchorPayload (q2 :: ps2)).length ≤ f - 1 := by
        have h3 : 1 ≤ (toDec q.1).length := by
          have := toDec_ne_nil q.1
          cases htd : toDec q.1 with
          | nil => exact absurd htd this
          | cons a l => simp [htd]
        simp only [List.length_cons, List.length_append] at hf
        omega
      obtain ⟨f2, rfl⟩ : ∃ f2, f = f2 + 1 := ⟨f - 1, by
        simp only [List.length_cons, List.length_append] at hf
        omega⟩
      rw [scanAux]
      rw [if_neg (by rintro ⟨h', -⟩; exact absurd h' (by decide))]
      rw [List.map_cons]
      rw [ih f2 (by omega) hnl']

/-- `scanMatches` on an anchored payload recovers positions and bodies. -/
theorem scanMatches_anchor (ps : List (Nat × PyStr)) (hnl : ∀ q ∈ ps, '\n' ∉ q.2) :
    scanMatches (anchorPayload ps) = ps.map fun q => (toDec q.1, q.2) :=
  scanAux_anchor ps _ (Nat.le_refl _) hnl

/-- Keys untouched by the dictionary fold keep their value. -/
theorem applyUpdates_foldl_notmem :
    ∀ (ups : List (Nat × PyStr)) (m : Nat → Option PyStr) (k : Nat),
      k ∉ ups.map Prod.fst →
      ups.foldl (fun m kv => fun n => if n = kv.1 then some kv.2 else m n) m k = m k := by
  intro ups
  induction ups with
  | nil => intro m k _; rfl
  | cons a ups ih =>
    intro m k hk
    rw [List.map_cons, List.mem_cons] at hk
    push_neg at hk
    rw [List.foldl_cons, ih _ k hk.2]
    rw [if_neg hk.1]

/-- With distinct keys, the dictionary fold returns the stored value. -/
theorem applyUpdates_foldl_lookup :
    ∀ (ups : List (Nat × PyStr)) (m : Nat → Option PyStr) (k : Nat) (v : PyStr),
      (ups.map Prod.fst).Nodup → (k, v) ∈ ups →
      ups.foldl (fun m kv => fun n => if n = kv.1 then some kv.2 else m n) m k = some v := by
  intro ups
  induction ups with
  | nil => intro m k v _ h; cases h
  | cons a ups ih =>
    intro m k v hnd hmem
    rw [List.map_cons, List.nodup_cons] at hnd
    rw [List.foldl_cons]
    rcases List.mem_cons.mp hmem with heq | hmem'
    · cases heq.symm
      rw [applyUpdates_foldl_notmem ups _ k hnd.1]
      simp
    · exact ih _ k v hnd.2 hmem'

theorem applyUpdates_lookup (ups : List (Nat × PyStr)) (k : Nat) (v : PyStr)
    (hnd : (ups.map Prod.fst).Nodup) (hmem : (k, v) ∈ ups) :
    applyUpdates ups k = some v :=
  applyUpdates_foldl_lookup ups _ k v hnd hmem

/-- The anchor positions `1..N` of a batch are distinct. -/
theorem sanitizedPairs_nodup (items : List (Nat × Subtitle)) :
    ((sanitizedPairs items).map Prod.fst).Nodup := by
  rw [sanitizedPairs, List.map_map]
  have he : (Prod.fst ∘ fun p : Nat × (Nat × Subtitle) => (p.1 + 1, sanitize p.2.2.content))
      = (fun n => n + 1) ∘ Prod.fst := rfl
  rw [he, ← List.map_map, List.enum_map_fst]
  exact (List.nodup_range _).map (add_left_injective 1)

/-- A `filterMap` whose function always hits is a `map`. -/
theorem filterMap_all_some {α β : Type} (f : α → Option β) (g : α → β) :
    ∀ l : List α, (∀ a ∈ l, f a = some (g a)) → l.filterMap f = l.map g := by
  intro l
  induction l with
  | nil => intro _; rfl
  | cons a l ih =>
    intro h
    rw [List.filterMap_cons, h a (List.mem_cons_self _ _), List.map_cons,
      ih (fun b hb => h b (List.mem_cons_of_mem _ hb))]

/-- A string starting with `'<'` does not strip to empty. -/
theorem pyStrip_lt_cons_ne_nil (r : PyStr) : pyStrip ('<' :: r) ≠ [] := by
  intro h
  unfold pyStrip at h
  rw [List.reverse_eq_nil_iff, List.dropWhile_eq_nil_iff] at h
  have hdw : List.dropWhile isPySpace ('<' :: r) = '<' :: r := by
    rw [List.dropWhile_cons, if_neg (by decide)]
  rw [hdw] at h
  have := h '<' (List.mem_reverse.mpr (List.mem_cons_self _ _))
  cases this

/-- The payload of a non-empty batch starts with `'<'`. -/
theorem batchPayload_head (g : Nat × Subtitle) (ps : List (Nat × Subtitle)) :
    ∃ r, batchPayload (g :: ps) = '<' :: r := by
  unfold batchPayload formattedLines
  rw [List.enum_cons, List.map_cons]
  cases hm : List.map (fun p => '<' :: (toDec (p.1 + 1) ++ '>' :: sanitize p.2.2.content))
      (List.enumFrom 1 ps) with
  | nil => exact ⟨_, rfl⟩
  | cons l2 ls => rw [joinNL_cons_cons]; exact ⟨_, rfl⟩

/-- Decoding the encoded payload of a batch, unchanged, recovers every
member's sanitized text and leaves no position missing (shared by the
round-trip and hard-failure analyses). -/
theorem decode_payload (items : List (Nat × Subtitle))
    (hc : ∀ gs ∈ items, containsSub "&lt;".toList (pyStrip gs.2.content) = false ∧
      containsSub "&gt;".toList (pyStrip gs.2.content) = false) :
    (∀ (i : Nat) (hi : i < items.length),
      buildTransMap (batchPayload items) (i + 1)
        = some (collapseNL (pyStrip (items.get ⟨i, hi⟩).2.content))) ∧
    missingAfter (batchPayload items) items = [] := by
  have hbp : batchPayload items = anchorPayload (sanitizedPairs items) := by
    rw [batchPayload, anchorPayload]
    congr 1
    simp [formattedLines, anchorLines, sanitizedPairs, List.map_map]
  have hnl : ∀ q ∈ sanitizedPairs items, '\n' ∉ q.2 := by
    intro q hq
    rw [sanitizedPairs, List.mem_map] at hq
    obtain ⟨p, _, rfl⟩ := hq
    exact sanitize_no_newline _
  have hscan : scanMatches (batchPayload items)
      = (sanitizedPairs items).map fun q => (toDec q.1, q.2) := by
    rw [hbp]
    exact scanMatches_anchor _ hnl
  have hclean : ∀ gs ∈ items,
      cleanFrag (sanitize gs.2.content) = collapseNL (pyStrip gs.2.content) := by
    intro gs hgs
    obtain ⟨hlt, hgt⟩ := hc gs hgs
    rw [cleanFrag, strip_sanitize, sanitize_eq_flatMap]
    have hult : containsSub "&lt;".toList (collapseNL (pyStrip gs.2.content)) = false :=
      containsSub_collapse _ _ (by decide) hlt
    have hugt : containsSub "&gt;".toList (collapseNL (pyStrip gs.2.content)) = false :=
      containsSub_collapse _ _ (by decide) hgt
    rw [unescLt_flatMap _ hult, unescGt_flatMap _ hugt]
  have hmap : (scanMatches (batchPayload items)).map
        (fun m => (parseDec m.1, cleanFrag m.2))
      = (sanitizedPairs items).map fun q => (q.1, cleanFrag q.2) := by
    rw [hscan, List.map_map]
    refine List.map_congr_left ?_
    intro q _
    simp [parseDec_toDec]
  have hnd : (((sanitizedPairs items).map fun q => (q.1, cleanFrag q.2)).map Prod.fst).Nodup := by
    rw [List.map_map]
    have he : (Prod.fst ∘ fun q : Nat × PyStr => (q.1, cleanFrag q.2)) = Prod.fst := rfl
    rw [he]
    exact sanitizedPairs_nodup items
  have hkey : ∀ (i : Nat) (hi : i < items.length),
      buildTransMap (batchPayload items) (i + 1)
        = some (collapseNL (pyStrip (items.get ⟨i, hi⟩).2.content)) := by
    intro i hi
    have hmem0 : (i, items.get ⟨i, hi⟩) ∈ items.enum := by
      rw [List.mk_mem_enum_iff_getElem?, List.get_eq_getElem]
      exact List.getElem?_eq_getElem hi
    have hmem1 : (i + 1, sanitize (items.get ⟨i, hi⟩).2.content) ∈ sanitizedPairs items := by
      rw [sanitizedPairs, List.mem_map]
      exact ⟨(i, items.get ⟨i, hi⟩), hmem0, rfl⟩
    have hmem2 : (i + 1, cleanFrag (sanitize (items.get ⟨i, hi⟩).2.content))
        ∈ (sanitizedPairs items).map fun q => (q.1, cleanFrag q.2) := by
      rw [List.mem_map]
      exact ⟨_, hmem1, rfl⟩
    rw [buildTransMap, hmap, applyUpdates_lookup _ _ _ hnd hmem2]
    rw [hclean _ (List.get_mem _ _ _)]
  refine ⟨hkey, ?_⟩
  rw [missingAfter, List.filter_eq_nil_iff]
  intro p hp
  have hmem : (p.1, p.2) ∈ items.enum := by
    cases p
    exact hp
  rw [List.mk_mem_enum_iff_getElem?] at hmem
  have hlen : p.1 < items.length := by
    by_contra hcon
    rw [List.getElem?_eq_none (by omega)] at hmem
    cases hmem
  rw [hkey p.1 hlen]
  simp

/-- Claim C10: the anchor codec round-trips.  For every batch whose
members' trimmed texts are non-empty and contain neither the literal
substring `"&lt;"` nor `"&gt;"`, decoding the encoded payload unchanged
recovers, at every relative position `1..N`, exactly that member's
sanitized text — trimmed, internal newlines collapsed to single spaces,
`'<'`/`'>'` restored by unescaping — with an empty set of missing
positions. -/
theorem c10_anchor_roundtrip (items : List (Nat × Subtitle))
    (h : ∀ gs ∈ items, pyStrip gs.2.content ≠ [] ∧
      containsSub "&lt;".toList (pyStrip gs.2.content) = false ∧
      containsSub "&gt;".toList (pyStrip gs.2.content) = false) :
    (∀ (i : Nat) (hi : i < items.length),
      buildTransMap (batchPayload items) (i + 1)
        = some (collapseNL (pyStrip (items.get ⟨i, hi⟩).2.content))) ∧
    missingAfter (batchPayload items) items = [] :=
  decode_payload items fun gs hgs => ⟨(h gs hgs).2.1, (h gs hgs).2.2⟩

/-- Witness for C10 at a two-member batch containing an escaped `'<'`. -/
theorem c10_witness :
    buildTransMap (batchPayload c10_items) 2 = some ("c<d".toList) ∧
    missingAfter (batchPayload c10_items) c10_items = [] := by
  have h := c10_anchor_roundtrip c10_items (by decide)
  exact ⟨(h.1 1 (by decide)).trans (by decide), h.2⟩

/-- Claim C8, amended: on a hard channel failure for a batch submission
there is no retry — the payload goes out exactly once; `translate_text`
returns it unchanged, decoding recovers every anchor (no missing
positions), and every segment's recorded translation is its own sanitized
source text. -/
theorem c8_amended_hard_failure (ch : Channel) (items : List (Nat × Subtitle))
    (hne : items ≠ [])
    (hfail : ch (batchPayload items) = ChannelResult.fail)
    (hc : ∀ gs ∈ items, containsSub "&lt;".toList (pyStrip gs.2.content) = false ∧
      containsSub "&gt;".toList (pyStrip gs.2.content) = false) :
    processBuffer ch false items
      = (items.map fun gs => (gs.1, collapseNL (pyStrip gs.2.content)),
         [batchPayload items]) := by
  obtain ⟨g, ps, rfl⟩ : ∃ g ps, items = g :: ps := by
    cases items with
    | nil => exact absurd rfl hne
    | cons g ps => exact ⟨g, ps, rfl⟩
  have hstrip : pyStrip (batchPayload (g :: ps)) ≠ [] := by
    obtain ⟨r, hr⟩ := batchPayload_head g ps
    rw [hr]
    exact pyStrip_lt_cons_ne_nil r
  have htr : translate_text ch (batchPayload (g :: ps)) = batchPayload (g :: ps) := by
    rw [translate_text, if_neg hstrip, hfail]
  obtain ⟨hkey, hmiss⟩ := decode_payload (g :: ps) hc
  have hfound : (g :: ps).enum.filterMap
      (fun p => (buildTransMap (batchPayload (g :: ps)) (p.1 + 1)).map fun t => (p.2.1, t))
      = (g :: ps).enum.map fun p => (p.2.1, collapseNL (pyStrip p.2.2.content)) := by
    refine filterMap_all_some _ _ _ ?_
    intro p hp
    have hmem : (p.1, p.2) ∈ (g :: ps).enum := by
      cases p
      exact hp
    rw [List.mk_mem_enum_iff_getElem?] at hmem
    have hlen : p.1 < (g :: ps).length := by
      by_contra hcon
      rw [List.getElem?_eq_none (by omega)] at hmem
      cases hmem
    rw [List.getElem?_eq_getElem hlen] at hmem
    have hget : (g :: ps).get ⟨p.1, hlen⟩ = p.2 := Option.some_injective _ hmem
    rw [hkey p.1 hlen, hget]
    rfl
  have henum : ((g :: ps).enum.map fun p => (p.2.1, collapseNL (pyStrip p.2.2.content)))
      = (g :: ps).map fun gs => (gs.1, collapseNL (pyStrip gs.2.content)) := by
    have he : (fun p : Nat × (Nat × Subtitle) => (p.2.1, collapseNL (pyStrip p.2.2.content)))
        = (fun gs : Nat × Subtitle => (gs.1, collapseNL (pyStrip gs.2.content))) ∘ Prod.snd :=
      rfl
    rw [he, ← List.map_map, List.enum_map_snd]
  rw [processBuffer, if_neg hne, if_neg (by simp)]
  simp only [htr, hfound, henum, hmiss, List.map_nil, List.append_nil]

/-- Witness for C8's amended statement: the concrete two-member batch under
the always-failing channel is submitted once and filled with its own
(sanitized) source texts. -/
theorem c8_witness :
    processBuffer failChannel false c8_items
      = ([(0, "ab".toList), (1, "cd.".toList)], [batchPayload c8_items]) := by
  have h := c8_amended_hard_failure failChannel c8_items (by decide) rfl (by decide)
  exact h.trans (by decide)

/-- Claim C5, amended: whatever the decode leaves missing is re-submitted
segment by segment as untagged raw text, in order, regardless of the size
of the missing set; the updates are the decoded anchors followed by the
per-segment refills, and the submission log is the batch payload followed
by the raw texts of all missing members — no re-encoded batch appears. -/
theorem c5_amended_missing_resubmission (ch : Channel) (items : List (Nat × Subtitle))
    (hne : items ≠ []) :
    (processBuffer ch false items).1
      = (items.enum.filterMap fun p =>
          (buildTransMap (translate_text ch (batchPayload items)) (p.1 + 1)).map
            fun t => (p.2.1, t))
        ++ (missingRel ch items).map (fun p => (p.2.1, translate_text ch p.2.2.content)) ∧
    (processBuffer ch false items).2
      = batchPayload items :: (missingRel ch items).map fun p => p.2.2.content := by
  rw [processBuffer, if_neg hne, if_neg (by simp)]
  exact ⟨rfl, rfl⟩

/-- Witness for C5's amended statement at the counterexample batch. -/
theorem c5_witness :
    (processBuffer c5_chan false c5_items).2
      = batchPayload c5_items :: (missingRel c5_chan c5_items).map fun p => p.2.2.content :=
  (c5_amended_missing_resubmission c5_chan c5_items (by decide)).2

/-- Claim C7, amended: only the batch anchor payload collapses a segment's
internal line breaks — every anchored line is newline-free — while
single-line mode and the singleton re-submissions of missing positions
transmit each segment's content verbatim, line breaks included. -/
theorem c7_amended_transmission_paths (ch : Channel) (items : List (Nat × Subtitle))
    (hne : items ≠ []) :
    (∀ line ∈ formattedLines items, '\n' ∉ line) ∧
    (processBuffer ch true items).2 = items.map (fun gs => gs.2.content) ∧
    (processBuffer ch false items).2
      = batchPayload items :: (missingRel ch items).map fun p => p.2.2.content := by
  refine ⟨?_, ?_, ?_⟩
  · intro line hline
    rw [formattedLines, List.mem_map] at hline
    obtain ⟨p, _, rfl⟩ := hline
    intro hmem
    rw [List.mem_cons] at hmem
    rcases hmem with h1 | hmem
    · exact absurd h1 (by decide)
    rw [List.mem_append] at hmem
    rcases hmem with h2 | hmem
    · exact absurd (toDec_digits _ _ h2) (by decide)
    rw [List.mem_cons] at hmem
    rcases hmem with h3 | h4
    · exact absurd h3 (by decide)
    · exact sanitize_no_newline _ h4
  · rw [processBuffer, if_neg hne, if_pos rfl]
  · rw [processBuffer, if_neg hne, if_neg (by simp)]
    rfl

/-- Witness for C7's amended statement: single-line mode transmits the raw
multi-line content verbatim. -/
theorem c7_witness :
    (processBuffer emptyChannel true [(0, c7_sub)]).2
      = [(0, c7_sub)].map fun gs => gs.2.content :=
  (c7_amended_transmission_paths emptyChannel [(0, c7_sub)] (by decide)).2.1

end VC
